import Mathlib

/-!
Verification of the sparse-triplet assembly and verification subsystem of the
`russell` numerical library (crates `russell_sparse` and `russell_lab`).

The Rust code is embedded shallowly:

* `Matrix` models `russell_lab::Matrix`: a fixed-dimension dense container
  with `new`, `fill` and `add` operations (entries as exact rationals, the
  standard exact model of the `f64` arithmetic used by the code).
* `SparseTriplet` models `russell_sparse::SparseTriplet`
  (src/russell_sparse/src/sparse_triplet.rs): fields `neq`, `pos`, `max`
  and the three parallel arrays `indices_i`, `indices_j`, `values_aij`
  (kept at length `max`, as the Rust `Vec`s allocated by `new`).
* Fallible Rust methods returning `Result<_, StrError>` become Lean
  functions into `Except String _`, carrying the exact error strings of
  the source.
-/

namespace Russell

/-- Dense matrix container (`russell_lab::Matrix`): fixed dimensions `m × n`
with entries addressed by `(row, col)`. -/
structure Matrix where
  m : ℕ
  n : ℕ
  data : ℕ → ℕ → ℚ

/-- `Matrix::new(m, n)`: an `m × n` matrix, zero-filled. -/
def Matrix.new (m n : ℕ) : Matrix :=
  ⟨m, n, fun _ _ => 0⟩

/-- `Matrix::fill(v)`: sets every entry to `v`. -/
def Matrix.fill (a : Matrix) (v : ℚ) : Matrix :=
  { a with data := fun _ _ => v }

/-- `Matrix::add(i, j, v)`: adds `v` into the entry at `(i, j)`. -/
def Matrix.add (a : Matrix) (i j : ℕ) (v : ℚ) : Matrix :=
  { a with data := fun p q => if p = i ∧ q = j then a.data p q + v else a.data p q }

/-- Sparse triplet store (`russell_sparse::SparseTriplet`): square dimension
`neq`, insertion cursor `pos`, capacity `max`, and the three parallel arrays
of row indices, column indices and values. -/
structure SparseTriplet where
  neq : ℕ
  pos : ℕ
  max : ℕ
  indices_i : List ℕ
  indices_j : List ℕ
  values_aij : List ℚ

/-- `SparseTriplet::new(neq, max)`: fails when `neq == 0 || max == 0`,
otherwise allocates the three arrays of length `max` (zero-filled) with
`pos = 0`. -/
def SparseTriplet.new (neq mx : ℕ) : Except String SparseTriplet :=
  if neq = 0 ∨ mx = 0 then .error "neq and max must be greater than zero"
  else .ok ⟨neq, 0, mx, List.replicate mx 0, List.replicate mx 0, List.replicate mx 0⟩

/-- `SparseTriplet::put(i, j, aij)`: bounds checks on `i` and `j` against
`neq`, capacity check `pos >= max`, then writes the triple at position `pos`
and increments `pos`. -/
def SparseTriplet.put (t : SparseTriplet) (i j : ℕ) (aij : ℚ) : Except String SparseTriplet :=
  if i ≥ t.neq then .error "sparse matrix row index is out of bounds"
  else if j ≥ t.neq then .error "sparse matrix column index is out of bounds"
  else if t.pos ≥ t.max then .error "current nnz (number of non-zeros) reached maximum limit"
  else .ok { t with
    indices_i := t.indices_i.set t.pos i
    indices_j := t.indices_j.set t.pos j
    values_aij := t.values_aij.set t.pos aij
    pos := t.pos + 1 }

/-- `SparseTriplet::reset()`: sets `pos = 0`, keeping the backing arrays. -/
def SparseTriplet.reset (t : SparseTriplet) : SparseTriplet :=
  { t with pos := 0 }

/-- `SparseTriplet::nnz_current()`: the current number of stored triples. -/
def SparseTriplet.nnz_current (t : SparseTriplet) : ℕ :=
  t.pos

/-- `SparseTriplet::to_matrix(a)`: rejects a target larger than `neq` in
either dimension, zero-fills it, then for each stored triple in insertion
order adds its value at `(i, j)` when both indices fall inside the target
window. -/
def SparseTriplet.to_matrix (t : SparseTriplet) (a : Matrix) : Except String Matrix :=
  if a.m > t.neq ∨ a.n > t.neq then .error "wrong matrix dimensions"
  else .ok ((List.range t.pos).foldl (fun acc p =>
    if t.indices_i.getD p 0 < a.m ∧ t.indices_j.getD p 0 < a.n then
      acc.add (t.indices_i.getD p 0) (t.indices_j.getD p 0) (t.values_aij.getD p 0)
    else acc) (a.fill 0))

/-- `SparseTriplet::as_matrix()`: materializes into a fresh `neq × neq`
matrix; the Rust code unwraps the `to_matrix` result (a panic is modelled
as `none`). -/
def SparseTriplet.as_matrix (t : SparseTriplet) : Option Matrix :=
  (t.to_matrix (Matrix.new t.neq t.neq)).toOption

/-- The `+=` compound assignment on a vector entry: `v[i] += x`. -/
def vaddAt (v : List ℚ) (i : ℕ) (x : ℚ) : List ℚ :=
  v.set i (v.getD i 0 + x)

/-- `SparseTriplet::mat_vec_mul(u, triangular)`: rejects `u` of length
different from `neq`; otherwise starts from the zero vector and for each
stored triple `(i, j, aij)` in insertion order accumulates
`v[i] += aij * u[j]`, and also `v[j] += aij * u[i]` when `triangular` holds
and `i ≠ j`. -/
def SparseTriplet.mat_vec_mul (t : SparseTriplet) (u : List ℚ) (triangular : Bool) :
    Except String (List ℚ) :=
  if u.length ≠ t.neq then .error "u.ndim must equal neq"
  else .ok ((List.range t.pos).foldl (fun v p =>
    let i := t.indices_i.getD p 0
    let j := t.indices_j.getD p 0
    let aij := t.values_aij.getD p 0
    let v1 := vaddAt v i (aij * u.getD j 0)
    if triangular ∧ i ≠ j then vaddAt v1 j (aij * u.getD i 0) else v1)
    (List.replicate t.neq 0))

/-- The BLAS `idamax` kernel, an external collaborator of the code: the
index of the first entry of largest absolute value among the first `n`
entries of `xs` (`0` when `n = 0`). -/
def idamax (n : ℕ) (xs : List ℚ) : ℕ :=
  (List.range n).foldl (fun best p => if |xs.getD p 0| > |xs.getD best 0| then p else best) 0

/-- `Vector::norm(EnumVectorNorm::Max)`: the largest absolute value of the
entries (`0` for the empty vector). -/
def vecNormMax (xs : List ℚ) : ℚ :=
  xs.foldl (fun acc x => max acc |x|) 0

/-- Verification result (`russell_sparse::VerifyLinSys`), without the
wall-clock `time_check` field (real time is outside the embedding). -/
structure VerifyLinSys where
  max_abs_a : ℚ
  max_abs_ax : ℚ
  max_abs_diff : ℚ
  relative_error : ℚ
  deriving DecidableEq

/-- `VerifyLinSys::new(trip, x, rhs)`
(src/russell_sparse/src/verify_lin_sys.rs): dimension check on `x` and
`rhs`, `max_abs_a` through `idamax` over the first `pos` stored values,
`ax = trip.mat_vec_mul(x)` (that source file predates the `triangular`
argument; its call performs the plain accumulation over the stored
triples, i.e. `triangular = false`), `max_abs_ax` and `max_abs_diff` as
Max-norms, where `update_vector(ax, -1.0, rhs)` realizes `ax := ax - rhs`,
and `relative_error = max_abs_diff / (max_abs_a + 1)`. -/
def VerifyLinSys.new (t : SparseTriplet) (x rhs : List ℚ) : Except String VerifyLinSys :=
  if x.length ≠ t.neq ∨ rhs.length ≠ t.neq then .error "vector dimensions are incompatible"
  else
    (t.mat_vec_mul x false).map (fun ax =>
      let maxAbsA := |t.values_aij.getD (idamax t.pos t.values_aij) 0|
      let maxAbsAx := vecNormMax ax
      let diff := List.zipWith (fun a r => a + (-1) * r) ax rhs
      let maxAbsDiff := vecNormMax diff
      ⟨maxAbsA, maxAbsAx, maxAbsDiff, maxAbsDiff / (maxAbsA + 1)⟩)

/-- Norm selector (`russell_lab::Norm`). -/
inductive Norm where
  | One
  | Inf
  | Euc
  | Fro
  | Max
  deriving DecidableEq

/-- The single-character norm selector passed to the external kernel
(`b'F'`, `b'I'`, `b'M'`, `b'1'`). -/
def normChar : Norm → Char
  | .Euc => 'F'
  | .Fro => 'F'
  | .Inf => 'I'
  | .Max => 'M'
  | .One => '1'

/-- `russell_lab::mat_norm(a, kind)`
(src/russell_lab/src/matrix/mat_norm.rs): returns `0` when either
dimension is zero, and otherwise consults the external `dlange` kernel
(an opaque collaborator, passed here as a function argument). -/
def mat_norm (dlange : Char → ℕ → ℕ → (ℕ → ℕ → ℚ) → ℚ) (a : Matrix) (kind : Norm) : ℚ :=
  if a.m = 0 ∨ a.n = 0 then 0
  else dlange (normChar kind) a.m a.n a.data

/-- A sequence of `put` calls, stopping at the first failure. -/
def putSeq (t : SparseTriplet) (es : List (ℕ × ℕ × ℚ)) : Except String SparseTriplet :=
  es.foldlM (fun s e => s.put e.1 e.2.1 e.2.2) t

/-- The triple stored at position `p` (row index, column index, value). -/
def tripleAt (t : SparseTriplet) (p : ℕ) : ℕ × ℕ × ℚ :=
  (t.indices_i.getD p 0, t.indices_j.getD p 0, t.values_aij.getD p 0)

/-- The meaningful content of the store: the first `pos` stored triples,
in insertion order. -/
def SparseTriplet.triples (t : SparseTriplet) : List (ℕ × ℕ × ℚ) :=
  (List.range t.pos).map (tripleAt t)

/-- Well-formedness of the backing storage: the three parallel arrays have
length `max`, exactly as allocated by `new`. -/
def SparseTriplet.wf (t : SparseTriplet) : Prop :=
  t.indices_i.length = t.max ∧ t.indices_j.length = t.max ∧ t.values_aij.length = t.max

/-- A mutating operation on a store: `put` (which leaves the store
unchanged when it fails) or `reset`. -/
inductive Op where
  | put (i j : ℕ) (v : ℚ)
  | reset

/-- Applies one operation to a store; a failing `put` returns the store
unchanged, as the Rust `&mut self` method does. -/
def applyOp (t : SparseTriplet) : Op → SparseTriplet
  | .put i j v =>
    match t.put i j v with
    | .ok t' => t'
    | .error _ => t
  | .reset => t.reset

/-- Runs a sequence of operations. -/
def runOps (t : SparseTriplet) (ops : List Op) : SparseTriplet :=
  ops.foldl applyOp t

/-- The states reachable from a successful `new` by `put` and `reset`. -/
def Reachable (t : SparseTriplet) : Prop :=
  ∃ neq mx t0 ops, SparseTriplet.new neq mx = .ok t0 ∧ t = runOps t0 ops

/-!
Specification-side definitions: the matrix content described by the spec,
for comparison with the code's materialization and multiplication.
-/

/-- The dense matrix content of an insertion-ordered list of triples: the
entry at `(i, j)` is the sum of the values of all triples with those
indices (duplicate summation). -/
def denseOfTriples (ts : List (ℕ × ℕ × ℚ)) (i j : ℕ) : ℚ :=
  (ts.map (fun e => if e.1 = i ∧ e.2.1 = j then e.2.2 else 0)).sum

/-- The symmetric completion of the content of a list of triples: every
off-diagonal stored triple also contributes, mirrored, at the transposed
position. -/
def symDenseOfTriples (ts : List (ℕ × ℕ × ℚ)) (i j : ℕ) : ℚ :=
  (ts.map (fun e =>
    (if e.1 = i ∧ e.2.1 = j then e.2.2 else 0) +
    (if e.1 ≠ e.2.1 ∧ e.2.1 = i ∧ e.1 = j then e.2.2 else 0))).sum

/-- The effective dense content seen by the multiplication for a given
`triangular` mode: mirrored when `triangular = true`, raw otherwise. -/
def effDense (triangular : Bool) (ts : List (ℕ × ℕ × ℚ)) (i j : ℕ) : ℚ :=
  (ts.map (fun e =>
    (if e.1 = i ∧ e.2.1 = j then e.2.2 else 0) +
    (if triangular = true ∧ e.1 ≠ e.2.1 ∧ e.2.1 = i ∧ e.1 = j then e.2.2 else 0))).sum

/-- The materialization loop stated over the list of stored triples:
zero-fill the target, then add (not overwrite) each in-window triple's
value in insertion order — the algorithm as the specification words it. -/
def materializeLoop (ts : List (ℕ × ℕ × ℚ)) (a : Matrix) : Matrix :=
  ts.foldl (fun acc e =>
    if e.1 < a.m ∧ e.2.1 < a.n then acc.add e.1 e.2.1 e.2.2 else acc) (a.fill 0)

/-- The multiplication loop over a list of triples from an arbitrary
start vector: for each triple `(i, j, a)` in order, `v[i] += a * u[j]`,
and `v[j] += a * u[i]` when `triangular` holds and `i ≠ j`. -/
def multiplyLoop (u : List ℚ) (triangular : Bool) (v0 : List ℚ)
    (ts : List (ℕ × ℕ × ℚ)) : List ℚ :=
  ts.foldl (fun v e =>
    let v1 := vaddAt v e.1 (e.2.2 * u.getD e.2.1 0)
    if triangular ∧ e.1 ≠ e.2.1 then vaddAt v1 e.2.1 (e.2.2 * u.getD e.1 0) else v1) v0

/-- The matrix-vector product as the specification words it: start from
zero and accumulate each stored triple in insertion order. -/
def multiplySpec (neq : ℕ) (ts : List (ℕ × ℕ × ℚ)) (u : List ℚ) (triangular : Bool) : List ℚ :=
  multiplyLoop u triangular (List.replicate neq 0) ts

/-- The contribution of one stored triple to entry `k` of the product. -/
def entryContrib (triangular : Bool) (u : List ℚ) (k : ℕ) (e : ℕ × ℕ × ℚ) : ℚ :=
  (if e.1 = k then e.2.2 * u.getD e.2.1 0 else 0) +
  (if triangular = true ∧ e.1 ≠ e.2.1 ∧ e.2.1 = k then e.2.2 * u.getD e.1 0 else 0)

/-! ### Helper lemmas about list updates -/

lemma getD_set_ne {α : Type} (l : List α) (q p : ℕ) (x d : α) (h : p ≠ q) :
    (l.set q x).getD p d = l.getD p d := by
  simp [List.getD_eq_getElem?_getD, List.getElem?_set_ne (Ne.symm h)]

lemma getD_set_self {α : Type} (l : List α) (p : ℕ) (x d : α) (h : p < l.length) :
    (l.set p x).getD p d = x := by
  simp [List.getD_eq_getElem?_getD, List.getElem?_set_self, h]

lemma getD_replicate_zero (n k : ℕ) (hk : k < n) :
    (List.replicate n (0 : ℚ)).getD k 0 = 0 := by
  simp [List.getD_eq_getElem?_getD, List.getElem?_replicate, hk]

lemma vaddAt_length (v : List ℚ) (i : ℕ) (x : ℚ) : (vaddAt v i x).length = v.length := by
  simp [vaddAt]

lemma vaddAt_getD (v : List ℚ) (i k : ℕ) (x : ℚ) (hk : k < v.length) :
    (vaddAt v i x).getD k 0 = v.getD k 0 + if k = i then x else 0 := by
  by_cases h : k = i
  · subst h
    rw [if_pos rfl]
    exact getD_set_self v k _ 0 hk
  · rw [if_neg h, add_zero]
    exact getD_set_ne v i k _ 0 h

/-! ### The multiplication loop: length preservation and entry formula -/

lemma multiplyLoop_length (u : List ℚ) (tri : Bool) :
    ∀ (ts : List (ℕ × ℕ × ℚ)) (v : List ℚ), (multiplyLoop u tri v ts).length = v.length := by
  intro ts
  induction ts with
  | nil => intro v; rfl
  | cons e ts ih =>
    intro v
    show (multiplyLoop u tri _ ts).length = v.length
    rw [ih]
    by_cases h : tri = true ∧ e.1 ≠ e.2.1
    · simp only [if_pos h, vaddAt_length]
    · simp only [if_neg h, vaddAt_length]

lemma multiplyLoop_getD (u : List ℚ) (tri : Bool) :
    ∀ (ts : List (ℕ × ℕ × ℚ)) (v : List ℚ) (k : ℕ), k < v.length →
      (multiplyLoop u tri v ts).getD k 0 =
        v.getD k 0 + (ts.map (entryContrib tri u k)).sum := by
  intro ts
  induction ts with
  | nil => intro v k _; simp [multiplyLoop]
  | cons e ts ih =>
    intro v k hk
    have hstep :
        (multiplyLoop u tri v (e :: ts)) =
          multiplyLoop u tri
            (if tri = true ∧ e.1 ≠ e.2.1 then
              vaddAt (vaddAt v e.1 (e.2.2 * u.getD e.2.1 0)) e.2.1 (e.2.2 * u.getD e.1 0)
            else vaddAt v e.1 (e.2.2 * u.getD e.2.1 0)) ts := by
      simp only [multiplyLoop, List.foldl_cons]
    rw [hstep]
    by_cases h : tri = true ∧ e.1 ≠ e.2.1
    · rw [if_pos h]
      rw [ih _ k (by rw [vaddAt_length, vaddAt_length]; exact hk)]
      rw [vaddAt_getD _ _ _ _ (by rw [vaddAt_length]; exact hk)]
      rw [vaddAt_getD _ _ _ _ hk]
      simp only [List.map_cons, List.sum_cons, entryContrib]
      have hsnd : (if tri = true ∧ e.1 ≠ e.2.1 ∧ e.2.1 = k then e.2.2 * u.getD e.1 0 else 0)
          = if k = e.2.1 then e.2.2 * u.getD e.1 0 else 0 := by
        by_cases hk21 : k = e.2.1
        · rw [if_pos hk21, if_pos ⟨h.1, h.2, hk21.symm⟩]
        · rw [if_neg hk21, if_neg (fun hc => hk21 hc.2.2.symm)]
      have hfst : (if e.1 = k then e.2.2 * u.getD e.2.1 0 else 0)
          = if k = e.1 then e.2.2 * u.getD e.2.1 0 else 0 := by
        by_cases hk1 : k = e.1
        · rw [if_pos hk1, if_pos hk1.symm]
        · rw [if_neg hk1, if_neg (fun hc => hk1 hc.symm)]
      rw [hsnd, hfst]
      ring
    · rw [if_neg h]
      rw [ih _ k (by rw [vaddAt_length]; exact hk)]
      rw [vaddAt_getD _ _ _ _ hk]
      simp only [List.map_cons, List.sum_cons, entryContrib]
      have hsnd : (if tri = true ∧ e.1 ≠ e.2.1 ∧ e.2.1 = k then e.2.2 * u.getD e.1 0 else 0)
          = 0 := by
        rw [if_neg (fun hc => h ⟨hc.1, hc.2.1⟩)]
      have hfst : (if e.1 = k then e.2.2 * u.getD e.2.1 0 else 0)
          = if k = e.1 then e.2.2 * u.getD e.2.1 0 else 0 := by
        by_cases hk1 : k = e.1
        · rw [if_pos hk1, if_pos hk1.symm]
        · rw [if_neg hk1, if_neg (fun hc => hk1 hc.symm)]
      rw [hsnd, hfst]
      ring

/-! ### Rewriting the implementation folds as folds over the stored triples -/

lemma mat_vec_mul_eq (t : SparseTriplet) (u : List ℚ) (tri : Bool) :
    t.mat_vec_mul u tri =
      if u.length ≠ t.neq then .error "u.ndim must equal neq"
      else .ok (multiplyLoop u tri (List.replicate t.neq 0) t.triples) := by
  unfold SparseTriplet.mat_vec_mul multiplyLoop SparseTriplet.triples
  rw [List.foldl_map]
  rfl

lemma to_matrix_eq (t : SparseTriplet) (a : Matrix) :
    t.to_matrix a =
      if a.m > t.neq ∨ a.n > t.neq then .error "wrong matrix dimensions"
      else .ok (materializeLoop t.triples a) := by
  unfold SparseTriplet.to_matrix materializeLoop SparseTriplet.triples
  rw [List.foldl_map]
  rfl

/-! ### The materialization loop: dimensions and entry formula -/

lemma materializeLoop_fold_dims (a : Matrix) :
    ∀ (ts : List (ℕ × ℕ × ℚ)) (acc : Matrix),
      (ts.foldl (fun acc e =>
        if e.1 < a.m ∧ e.2.1 < a.n then acc.add e.1 e.2.1 e.2.2 else acc) acc).m = acc.m ∧
      (ts.foldl (fun acc e =>
        if e.1 < a.m ∧ e.2.1 < a.n then acc.add e.1 e.2.1 e.2.2 else acc) acc).n = acc.n := by
  intro ts
  induction ts with
  | nil => intro acc; exact ⟨rfl, rfl⟩
  | cons e ts ih =>
    intro acc
    rw [List.foldl_cons]
    refine ⟨(ih _).1.trans ?_, (ih _).2.trans ?_⟩ <;>
      by_cases h : e.1 < a.m ∧ e.2.1 < a.n <;> simp [h, Matrix.add]

lemma materializeLoop_dims (ts : List (ℕ × ℕ × ℚ)) (a : Matrix) :
    (materializeLoop ts a).m = a.m ∧ (materializeLoop ts a).n = a.n := by
  unfold materializeLoop
  exact materializeLoop_fold_dims a ts (a.fill 0)

lemma materializeLoop_entry (a : Matrix) (i j : ℕ) (hi : i < a.m) (hj : j < a.n) :
    ∀ (ts : List (ℕ × ℕ × ℚ)) (acc : Matrix),
      (ts.foldl (fun acc e =>
        if e.1 < a.m ∧ e.2.1 < a.n then acc.add e.1 e.2.1 e.2.2 else acc) acc).data i j
        = acc.data i j + denseOfTriples ts i j := by
  intro ts
  induction ts with
  | nil => intro acc; simp [denseOfTriples]
  | cons e ts ih =>
    intro acc
    rw [List.foldl_cons, ih]
    have hdense : denseOfTriples (e :: ts) i j =
        (if e.1 = i ∧ e.2.1 = j then e.2.2 else 0) + denseOfTriples ts i j := by
      simp [denseOfTriples]
    rw [hdense]
    by_cases hw : e.1 < a.m ∧ e.2.1 < a.n
    · rw [if_pos hw]
      show (if i = e.1 ∧ j = e.2.1 then acc.data i j + e.2.2 else acc.data i j) + _ = _
      by_cases he : e.1 = i ∧ e.2.1 = j
      · rw [if_pos ⟨he.1.symm, he.2.symm⟩, if_pos he]
        ring
      · rw [if_neg (fun hc => he ⟨hc.1.symm, hc.2.symm⟩), if_neg he]
        ring
    · rw [if_neg hw, if_neg (fun hc : e.1 = i ∧ e.2.1 = j =>
        hw ⟨by rw [hc.1]; exact hi, by rw [hc.2]; exact hj⟩)]
      ring

lemma materializeLoop_data (ts : List (ℕ × ℕ × ℚ)) (a : Matrix) (i j : ℕ)
    (hi : i < a.m) (hj : j < a.n) :
    (materializeLoop ts a).data i j = denseOfTriples ts i j := by
  unfold materializeLoop
  rw [materializeLoop_entry a i j hi hj ts (a.fill 0)]
  show (0 : ℚ) + _ = _
  rw [zero_add]

/-! ### Structural lemmas about `new`, `put`, `putSeq` and `triples` -/

lemma new_ok (neq mx : ℕ) (h1 : neq ≠ 0) (h2 : mx ≠ 0) :
    SparseTriplet.new neq mx =
      .ok ⟨neq, 0, mx, List.replicate mx 0, List.replicate mx 0, List.replicate mx 0⟩ := by
  unfold SparseTriplet.new
  rw [if_neg (by push_neg; exact ⟨h1, h2⟩)]

lemma new_inv (neq mx : ℕ) (t0 : SparseTriplet) (h : SparseTriplet.new neq mx = .ok t0) :
    t0 = ⟨neq, 0, mx, List.replicate mx 0, List.replicate mx 0, List.replicate mx 0⟩ ∧
      neq ≠ 0 ∧ mx ≠ 0 := by
  unfold SparseTriplet.new at h
  by_cases hc : neq = 0 ∨ mx = 0
  · rw [if_pos hc] at h
    cases h
  · rw [if_neg hc] at h
    cases h
    push_neg at hc
    exact ⟨rfl, hc.1, hc.2⟩

lemma new_wf (neq mx : ℕ) (t0 : SparseTriplet) (h : SparseTriplet.new neq mx = .ok t0) :
    t0.wf ∧ t0.pos = 0 ∧ t0.neq = neq ∧ t0.max = mx ∧ t0.triples = [] := by
  obtain ⟨rfl, -, -⟩ := new_inv neq mx t0 h
  refine ⟨⟨?_, ?_, ?_⟩, rfl, rfl, rfl, ?_⟩ <;>
    simp [SparseTriplet.wf, SparseTriplet.triples]

lemma triples_reset (t : SparseTriplet) : t.reset.triples = [] := by
  simp [SparseTriplet.triples, SparseTriplet.reset]

lemma put_eq_ok (t : SparseTriplet) (i j : ℕ) (v : ℚ)
    (hi : i < t.neq) (hj : j < t.neq) (hp : t.pos < t.max) :
    t.put i j v = .ok ⟨t.neq, t.pos + 1, t.max,
      t.indices_i.set t.pos i, t.indices_j.set t.pos j, t.values_aij.set t.pos v⟩ := by
  unfold SparseTriplet.put
  rw [if_neg (not_le.mpr hi), if_neg (not_le.mpr hj), if_neg (not_le.mpr hp)]

lemma triples_put (t : SparseTriplet) (i j : ℕ) (v : ℚ) (hwf : t.wf)
    (hi : i < t.neq) (hj : j < t.neq) (hp : t.pos < t.max) :
    ∃ t', t.put i j v = .ok t' ∧ t'.triples = t.triples ++ [(i, j, v)] ∧
      t'.neq = t.neq ∧ t'.pos = t.pos + 1 ∧ t'.max = t.max ∧ t'.wf := by
  refine ⟨_, put_eq_ok t i j v hi hj hp, ?_, rfl, rfl, rfl, ?_⟩
  · show (List.range (t.pos + 1)).map _ = _
    rw [List.range_succ, List.map_append, List.map_singleton]
    congr 1
    · apply List.map_congr_left
      intro p hp'
      have hplt : p < t.pos := List.mem_range.mp hp'
      have hne : p ≠ t.pos := Nat.ne_of_lt hplt
      unfold tripleAt
      show (_, _, _) = (_, _, _)
      rw [getD_set_ne _ _ _ _ _ hne, getD_set_ne _ _ _ _ _ hne, getD_set_ne _ _ _ _ _ hne]
    · have hcomp : tripleAt ⟨t.neq, t.pos + 1, t.max, t.indices_i.set t.pos i,
          t.indices_j.set t.pos j, t.values_aij.set t.pos v⟩ t.pos = (i, j, v) := by
        unfold tripleAt
        show (_, _, _) = (_, _, _)
        rw [getD_set_self _ _ _ _ (hwf.1 ▸ hp), getD_set_self _ _ _ _ (hwf.2.1 ▸ hp),
          getD_set_self _ _ _ _ (hwf.2.2 ▸ hp)]
      rw [hcomp]
  · exact ⟨by simp [hwf.1], by simp [hwf.2.1], by simp [hwf.2.2]⟩

lemma putSeq_nil (t : SparseTriplet) : putSeq t [] = .ok t := rfl

lemma putSeq_cons (t : SparseTriplet) (e : ℕ × ℕ × ℚ) (es : List (ℕ × ℕ × ℚ)) :
    putSeq t (e :: es) = (t.put e.1 e.2.1 e.2.2).bind (fun s => putSeq s es) := by
  show List.foldlM _ _ _ = _
  rw [List.foldlM_cons]
  rfl

lemma putSeq_ok :
    ∀ (es : List (ℕ × ℕ × ℚ)) (t : SparseTriplet), t.wf →
      (∀ e ∈ es, e.1 < t.neq ∧ e.2.1 < t.neq) → t.pos + es.length ≤ t.max →
      ∃ t', putSeq t es = .ok t' ∧ t'.pos = t.pos + es.length ∧
        t'.neq = t.neq ∧ t'.max = t.max ∧ t'.wf ∧ t'.triples = t.triples ++ es := by
  intro es
  induction es with
  | nil =>
    intro t hwf _ _
    exact ⟨t, putSeq_nil t, by simp, rfl, rfl, hwf, by simp⟩
  | cons e es ih =>
    intro t hwf hb hcap
    have hp : t.pos < t.max := by
      have := hcap
      simp only [List.length_cons] at this
      omega
    obtain ⟨t1, hput, htr, hneq, hpos, hmax, hwf1⟩ :=
      triples_put t e.1 e.2.1 e.2.2 hwf (hb e (by simp)).1 (hb e (by simp)).2 hp
    obtain ⟨t', hseq, hpos', hneq', hmax', hwf', htr'⟩ := ih t1 hwf1
      (fun x hx => hneq ▸ hb x (by simp [hx]))
      (by rw [hpos, hmax]; simp only [List.length_cons] at hcap; omega)
    refine ⟨t', ?_, ?_, ?_, ?_, hwf', ?_⟩
    · rw [putSeq_cons, hput]
      exact hseq
    · rw [hpos', hpos]
      simp only [List.length_cons]
      omega
    · rw [hneq', hneq]
    · rw [hmax', hmax]
    · rw [htr', htr]
      simp

/-! ### From per-triple contributions to dense matrix content -/

lemma sum_indicator_mul (n jj : ℕ) (hjj : jj < n) (a : ℚ) (u : List ℚ) :
    ∑ j ∈ Finset.range n, (if jj = j then a else 0) * u.getD j 0 = a * u.getD jj 0 := by
  rw [Finset.sum_eq_single jj]
  · rw [if_pos rfl]
  · intro b _ hb
    rw [if_neg (fun h => hb h.symm), zero_mul]
  · intro h
    exact absurd (Finset.mem_range.mpr hjj) h

lemma entryContrib_eq_sum (tri : Bool) (u : List ℚ) (n k : ℕ) (e : ℕ × ℕ × ℚ)
    (h1 : e.1 < n) (h2 : e.2.1 < n) :
    entryContrib tri u k e =
      ∑ j ∈ Finset.range n,
        ((if e.1 = k ∧ e.2.1 = j then e.2.2 else 0) +
         (if tri = true ∧ e.1 ≠ e.2.1 ∧ e.2.1 = k ∧ e.1 = j then e.2.2 else 0)) * u.getD j 0 := by
  have hsplit :
      ∑ j ∈ Finset.range n,
        ((if e.1 = k ∧ e.2.1 = j then e.2.2 else 0) +
         (if tri = true ∧ e.1 ≠ e.2.1 ∧ e.2.1 = k ∧ e.1 = j then e.2.2 else 0)) * u.getD j 0 =
      (∑ j ∈ Finset.range n, (if e.1 = k ∧ e.2.1 = j then e.2.2 else 0) * u.getD j 0) +
      ∑ j ∈ Finset.range n,
        (if tri = true ∧ e.1 ≠ e.2.1 ∧ e.2.1 = k ∧ e.1 = j then e.2.2 else 0) * u.getD j 0 := by
    rw [← Finset.sum_add_distrib]
    exact Finset.sum_congr rfl (fun j _ => by ring)
  rw [hsplit]
  unfold entryContrib
  have hpart1 : ∑ j ∈ Finset.range n, (if e.1 = k ∧ e.2.1 = j then e.2.2 else 0) * u.getD j 0 =
      if e.1 = k then e.2.2 * u.getD e.2.1 0 else 0 := by
    by_cases hc : e.1 = k
    · rw [if_pos hc, ← sum_indicator_mul n e.2.1 h2 e.2.2 u]
      refine Finset.sum_congr rfl (fun j _ => ?_)
      by_cases hj : e.2.1 = j
      · rw [if_pos ⟨hc, hj⟩, if_pos hj]
      · rw [if_neg (fun h => hj h.2), if_neg hj]
    · rw [if_neg hc]
      rw [Finset.sum_congr rfl (fun j _ => by rw [if_neg (fun h => hc h.1), zero_mul])]
      exact Finset.sum_const_zero
  have hpart2 :
      ∑ j ∈ Finset.range n,
        (if tri = true ∧ e.1 ≠ e.2.1 ∧ e.2.1 = k ∧ e.1 = j then e.2.2 else 0) * u.getD j 0 =
      if tri = true ∧ e.1 ≠ e.2.1 ∧ e.2.1 = k then e.2.2 * u.getD e.1 0 else 0 := by
    by_cases hc : tri = true ∧ e.1 ≠ e.2.1 ∧ e.2.1 = k
    · rw [if_pos hc, ← sum_indicator_mul n e.1 h1 e.2.2 u]
      refine Finset.sum_congr rfl (fun j _ => ?_)
      by_cases hj : e.1 = j
      · rw [if_pos ⟨hc.1, hc.2.1, hc.2.2, hj⟩, if_pos hj]
      · rw [if_neg (fun h => hj h.2.2.2), if_neg hj]
    · rw [if_neg hc]
      rw [Finset.sum_congr rfl
        (fun j _ => by rw [if_neg (fun h => hc ⟨h.1, h.2.1, h.2.2.1⟩), zero_mul])]
      exact Finset.sum_const_zero
  rw [hpart1, hpart2]

lemma contribSum_eq_effDense (tri : Bool) (u : List ℚ) (n k : ℕ) :
    ∀ ts : List (ℕ × ℕ × ℚ), (∀ e ∈ ts, e.1 < n ∧ e.2.1 < n) →
      (ts.map (entryContrib tri u k)).sum =
        ∑ j ∈ Finset.range n, effDense tri ts k j * u.getD j 0 := by
  intro ts
  induction ts with
  | nil =>
    intro _
    simp [effDense]
  | cons e ts ih =>
    intro hb
    have heff : ∀ j, effDense tri (e :: ts) k j =
        ((if e.1 = k ∧ e.2.1 = j then e.2.2 else 0) +
         (if tri = true ∧ e.1 ≠ e.2.1 ∧ e.2.1 = k ∧ e.1 = j then e.2.2 else 0)) +
        effDense tri ts k j := by
      intro j
      simp only [effDense, List.map_cons, List.sum_cons]
    rw [List.map_cons, List.sum_cons, ih (fun x hx => hb x (by simp [hx]))]
    have hsum : ∑ j ∈ Finset.range n, effDense tri (e :: ts) k j * u.getD j 0 =
        (∑ j ∈ Finset.range n,
          ((if e.1 = k ∧ e.2.1 = j then e.2.2 else 0) +
           (if tri = true ∧ e.1 ≠ e.2.1 ∧ e.2.1 = k ∧ e.1 = j then e.2.2 else 0)) * u.getD j 0) +
        ∑ j ∈ Finset.range n, effDense tri ts k j * u.getD j 0 := by
      rw [← Finset.sum_add_distrib]
      refine Finset.sum_congr rfl (fun j _ => ?_)
      rw [heff j]
      ring
    rw [hsum, ← entryContrib_eq_sum tri u n k e (hb e (by simp)).1 (hb e (by simp)).2]

lemma multiplySpec_length (neq : ℕ) (ts : List (ℕ × ℕ × ℚ)) (u : List ℚ) (tri : Bool) :
    (multiplySpec neq ts u tri).length = neq := by
  unfold multiplySpec
  rw [multiplyLoop_length, List.length_replicate]

lemma multiplySpec_getD (neq : ℕ) (ts : List (ℕ × ℕ × ℚ)) (u : List ℚ) (tri : Bool)
    (k : ℕ) (hk : k < neq) (hb : ∀ e ∈ ts, e.1 < neq ∧ e.2.1 < neq) :
    (multiplySpec neq ts u tri).getD k 0 =
      ∑ j ∈ Finset.range neq, effDense tri ts k j * u.getD j 0 := by
  unfold multiplySpec
  rw [multiplyLoop_getD u tri ts _ k (by rw [List.length_replicate]; exact hk)]
  rw [getD_replicate_zero neq k hk, zero_add]
  exact contribSum_eq_effDense tri u neq k ts hb

lemma effDense_false (ts : List (ℕ × ℕ × ℚ)) (i j : ℕ) :
    effDense false ts i j = denseOfTriples ts i j := by
  simp [effDense, denseOfTriples]

lemma effDense_true (ts : List (ℕ × ℕ × ℚ)) (i j : ℕ) :
    effDense true ts i j = symDenseOfTriples ts i j := by
  simp [effDense, symDenseOfTriples]

/-! ### Lemmas for the verifier -/

lemma mat_vec_mul_ok (t : SparseTriplet) (u : List ℚ) (tri : Bool) (v : List ℚ)
    (h : t.mat_vec_mul u tri = .ok v) :
    u.length = t.neq ∧ v.length = t.neq ∧ v = multiplySpec t.neq t.triples u tri := by
  rw [mat_vec_mul_eq] at h
  by_cases hl : u.length ≠ t.neq
  · rw [if_pos hl] at h
    cases h
  · rw [if_neg hl] at h
    push_neg at hl
    cases h
    exact ⟨hl, multiplySpec_length t.neq t.triples u tri, rfl⟩

lemma zipWith_sub_self (v : List ℚ) :
    List.zipWith (fun a r => a + (-1) * r) v v = List.replicate v.length 0 := by
  induction v with
  | nil => rfl
  | cons x v ih =>
    simp only [List.zipWith_cons_cons, ih, List.length_cons, List.replicate_succ]
    congr 1
    ring

lemma vecNormMax_replicate_zero (n : ℕ) : vecNormMax (List.replicate n 0) = 0 := by
  induction n with
  | zero => rfl
  | succ n ih =>
    have : vecNormMax (List.replicate (n + 1) 0) = vecNormMax (List.replicate n 0) := by
      simp [vecNormMax, List.replicate_succ]
    rw [this, ih]

/-! ### `put` error and inversion lemmas -/

lemma put_error_row (t : SparseTriplet) (i j : ℕ) (v : ℚ) (h : i ≥ t.neq) :
    t.put i j v = .error "sparse matrix row index is out of bounds" := by
  unfold SparseTriplet.put
  rw [if_pos h]

lemma put_error_col (t : SparseTriplet) (i j : ℕ) (v : ℚ) (hi : i < t.neq) (h : j ≥ t.neq) :
    t.put i j v = .error "sparse matrix column index is out of bounds" := by
  unfold SparseTriplet.put
  rw [if_neg (not_le.mpr hi), if_pos h]

lemma put_error_cap (t : SparseTriplet) (i j : ℕ) (v : ℚ) (hi : i < t.neq) (hj : j < t.neq)
    (h : t.pos ≥ t.max) :
    t.put i j v = .error "current nnz (number of non-zeros) reached maximum limit" := by
  unfold SparseTriplet.put
  rw [if_neg (not_le.mpr hi), if_neg (not_le.mpr hj), if_pos h]

lemma put_ok_inv (t t' : SparseTriplet) (i j : ℕ) (v : ℚ) (h : t.put i j v = .ok t') :
    i < t.neq ∧ j < t.neq ∧ t.pos < t.max ∧
      t' = ⟨t.neq, t.pos + 1, t.max,
        t.indices_i.set t.pos i, t.indices_j.set t.pos j, t.values_aij.set t.pos v⟩ := by
  unfold SparseTriplet.put at h
  by_cases h1 : i ≥ t.neq
  · rw [if_pos h1] at h
    cases h
  · rw [if_neg h1] at h
    by_cases h2 : j ≥ t.neq
    · rw [if_pos h2] at h
      cases h
    · rw [if_neg h2] at h
      by_cases h3 : t.pos ≥ t.max
      · rw [if_pos h3] at h
        cases h
      · rw [if_neg h3] at h
        cases h
        exact ⟨not_le.mp h1, not_le.mp h2, not_le.mp h3, rfl⟩

/-! ### Observational equivalence of stores (same meaningful content) -/

/-- Two stores that agree on dimension, capacity, cursor and the first
`pos` stored triples; they may differ in the stale array content beyond
`pos`. -/
def Obseq (t1 t2 : SparseTriplet) : Prop :=
  t1.neq = t2.neq ∧ t1.pos = t2.pos ∧ t1.max = t2.max ∧ t1.wf ∧ t2.wf ∧
    t1.triples = t2.triples

/-- Lifts `Obseq` to `put`/`putSeq` results: errors must match exactly,
successes must stay observationally equivalent. -/
def obseqE : Except String SparseTriplet → Except String SparseTriplet → Prop
  | .error e1, .error e2 => e1 = e2
  | .ok s1, .ok s2 => Obseq s1 s2
  | _, _ => False

lemma put_obseq (t1 t2 : SparseTriplet) (h : Obseq t1 t2) (i j : ℕ) (v : ℚ) :
    obseqE (t1.put i j v) (t2.put i j v) := by
  obtain ⟨hneq, hpos, hmax, hwf1, hwf2, htr⟩ := h
  by_cases h1 : i ≥ t1.neq
  · rw [put_error_row t1 i j v h1, put_error_row t2 i j v (hneq ▸ h1)]
    rfl
  · push_neg at h1
    by_cases h2 : j ≥ t1.neq
    · rw [put_error_col t1 i j v h1 h2, put_error_col t2 i j v (hneq ▸ h1) (hneq ▸ h2)]
      rfl
    · push_neg at h2
      by_cases h3 : t1.pos ≥ t1.max
      · rw [put_error_cap t1 i j v h1 h2 h3,
          put_error_cap t2 i j v (hneq ▸ h1) (hneq ▸ h2) (hpos ▸ hmax ▸ h3)]
        rfl
      · push_neg at h3
        obtain ⟨s1, hput1, htr1, hneq1, hpos1, hmax1, hwf1'⟩ :=
          triples_put t1 i j v hwf1 h1 h2 h3
        obtain ⟨s2, hput2, htr2, hneq2, hpos2, hmax2, hwf2'⟩ :=
          triples_put t2 i j v hwf2 (hneq ▸ h1) (hneq ▸ h2) (hpos ▸ hmax ▸ h3)
        rw [hput1, hput2]
        show Obseq s1 s2
        refine ⟨?_, ?_, ?_, hwf1', hwf2', ?_⟩
        · rw [hneq1, hneq2, hneq]
        · rw [hpos1, hpos2, hpos]
        · rw [hmax1, hmax2, hmax]
        · rw [htr1, htr2, htr]

lemma putSeq_obseq :
    ∀ (es : List (ℕ × ℕ × ℚ)) (t1 t2 : SparseTriplet), Obseq t1 t2 →
      obseqE (putSeq t1 es) (putSeq t2 es) := by
  intro es
  induction es with
  | nil =>
    intro t1 t2 h
    rw [putSeq_nil, putSeq_nil]
    exact h
  | cons e es ih =>
    intro t1 t2 h
    rw [putSeq_cons, putSeq_cons]
    have hp := put_obseq t1 t2 h e.1 e.2.1 e.2.2
    cases hp1 : t1.put e.1 e.2.1 e.2.2 with
    | error e1 =>
      cases hp2 : t2.put e.1 e.2.1 e.2.2 with
      | error e2 =>
        rw [hp1, hp2] at hp
        show obseqE (Except.error e1) (Except.error e2)
        exact hp
      | ok s2 =>
        rw [hp1, hp2] at hp
        exact absurd hp (by simp [obseqE])
    | ok s1 =>
      cases hp2 : t2.put e.1 e.2.1 e.2.2 with
      | error e2 =>
        rw [hp1, hp2] at hp
        exact absurd hp (by simp [obseqE])
      | ok s2 =>
        rw [hp1, hp2] at hp
        exact ih s1 s2 hp

lemma obseq_to_matrix (t1 t2 : SparseTriplet) (h : Obseq t1 t2) (a : Matrix) :
    t1.to_matrix a = t2.to_matrix a := by
  rw [to_matrix_eq, to_matrix_eq, h.1, h.2.2.2.2.2]

lemma obseq_mat_vec_mul (t1 t2 : SparseTriplet) (h : Obseq t1 t2) (u : List ℚ) (tri : Bool) :
    t1.mat_vec_mul u tri = t2.mat_vec_mul u tri := by
  rw [mat_vec_mul_eq, mat_vec_mul_eq, h.1, h.2.2.2.2.2]

/-! ### The reachable-state invariant -/

/-- Invariant maintained by every reachable state: the cursor is within
capacity, the backing arrays have length `max`, and every meaningful
stored index is within the matrix dimension. -/
def ReachInv (t : SparseTriplet) : Prop :=
  t.pos ≤ t.max ∧ t.wf ∧
    ∀ p < t.pos, t.indices_i.getD p 0 < t.neq ∧ t.indices_j.getD p 0 < t.neq

lemma reachInv_applyOp (t : SparseTriplet) (h : ReachInv t) (op : Op) :
    ReachInv (applyOp t op) := by
  obtain ⟨hpm, hwf, hb⟩ := h
  cases op with
  | reset =>
    exact ⟨Nat.zero_le _, hwf, fun p hp => absurd hp (Nat.not_lt_zero p)⟩
  | put i j v =>
    cases hput : t.put i j v with
    | error e =>
      have happ : applyOp t (.put i j v) = t := by
        show (match t.put i j v with | .ok s => s | .error _ => t) = t
        rw [hput]
      rw [happ]
      exact ⟨hpm, hwf, hb⟩
    | ok t' =>
      have happ : applyOp t (.put i j v) = t' := by
        show (match t.put i j v with | .ok s => s | .error _ => t) = t'
        rw [hput]
      rw [happ]
      obtain ⟨hi, hj, hp, rfl⟩ := put_ok_inv t t' i j v hput
      refine ⟨hp, ⟨by simp [hwf.1], by simp [hwf.2.1], by simp [hwf.2.2]⟩, ?_⟩
      intro p hplt
      have hplt2 : p < t.pos + 1 := hplt
      by_cases hpe : p = t.pos
      · show (t.indices_i.set t.pos i).getD p 0 < t.neq ∧
          (t.indices_j.set t.pos j).getD p 0 < t.neq
        rw [hpe, getD_set_self _ _ _ _ (hwf.1 ▸ hp), getD_set_self _ _ _ _ (hwf.2.1 ▸ hp)]
        exact ⟨hi, hj⟩
      · have hplt3 : p < t.pos := by omega
        show (t.indices_i.set t.pos i).getD p 0 < t.neq ∧
          (t.indices_j.set t.pos j).getD p 0 < t.neq
        rw [getD_set_ne _ _ _ _ _ hpe, getD_set_ne _ _ _ _ _ hpe]
        exact hb p hplt3

lemma reachInv_runOps :
    ∀ (ops : List Op) (t : SparseTriplet), ReachInv t → ReachInv (runOps t ops) := by
  intro ops
  induction ops with
  | nil => intro t h; exact h
  | cons op ops ih =>
    intro t h
    show ReachInv (List.foldl applyOp (applyOp t op) ops)
    exact ih _ (reachInv_applyOp t h op)

lemma reachable_inv (t : SparseTriplet) (h : Reachable t) : ReachInv t := by
  obtain ⟨neq, mx, t0, ops, hnew, rfl⟩ := h
  obtain ⟨hwf0, hpos0, -, -, -⟩ := new_wf neq mx t0 hnew
  exact reachInv_runOps ops t0
    ⟨by rw [hpos0]; exact Nat.zero_le _, hwf0, fun p hp => by omega⟩

/-! ### Remaining small helpers and concrete stores used by the scenarios -/

lemma except_bind_ok {α β : Type} (a : α) (f : α → Except String β) :
    (Except.ok a : Except String α).bind f = f a := rfl

lemma as_matrix_eq (t : SparseTriplet) :
    t.as_matrix = some (materializeLoop t.triples (Matrix.new t.neq t.neq)) := by
  unfold SparseTriplet.as_matrix
  rw [to_matrix_eq, if_neg (by simp [Matrix.new])]
  rfl

lemma denseOfTriples_append (ts1 ts2 : List (ℕ × ℕ × ℚ)) (i j : ℕ) :
    denseOfTriples (ts1 ++ ts2) i j = denseOfTriples ts1 i j + denseOfTriples ts2 i j := by
  simp [denseOfTriples]

lemma denseOfTriples_single (i j : ℕ) (v : ℚ) : denseOfTriples [(i, j, v)] i j = v := by
  simp [denseOfTriples]

lemma list_eq_of_getD (l1 l2 : List ℚ) (hlen : l1.length = l2.length)
    (h : ∀ k, k < l1.length → l1.getD k 0 = l2.getD k 0) : l1 = l2 := by
  apply List.ext_getElem hlen
  intro k h1 h2
  have hk := h k h1
  rwa [List.getD_eq_getElem?_getD, List.getD_eq_getElem?_getD,
    List.getElem?_eq_getElem h1, List.getElem?_eq_getElem h2, Option.getD_some,
    Option.getD_some] at hk

/-- The store produced by `new(1, 1)`. -/
def oneStart : SparseTriplet :=
  ⟨1, 0, 1, [0], [0], [0]⟩

/-- The store produced by `new(2, 2)`. -/
def twoStart : SparseTriplet :=
  ⟨2, 0, 2, [0, 0], [0, 0], [0, 0]⟩

/-- The 4×4 duplicate-summation scenario store: capacity 7, holding
(0,0,0.5), (0,0,0.5), (0,1,2), (1,0,3), (1,1,4), (2,2,5), (3,3,6). -/
def dupStore : SparseTriplet :=
  ⟨4, 7, 7, [0, 0, 0, 1, 1, 2, 3], [0, 0, 1, 0, 1, 2, 3], [1/2, 1/2, 2, 3, 4, 5, 6]⟩

/-- The tridiagonal `[[2,-1,0],[-1,2,-1],[0,-1,2]]` stored as its lower
triangle: (0,0,2), (1,1,2), (2,2,2), (1,0,-1), (2,1,-1). -/
def lowStore : SparseTriplet :=
  ⟨3, 5, 5, [0, 1, 2, 1, 2], [0, 1, 2, 0, 1], [2, 2, 2, -1, -1]⟩

/-- The 3×3 verifier scenario store holding `[[1,3,-2],[3,5,6],[2,4,3]]`
row by row. -/
def exStore : SparseTriplet :=
  ⟨3, 9, 9, [0, 0, 0, 1, 1, 1, 2, 2, 2], [0, 1, 2, 0, 1, 2, 0, 1, 2],
    [1, 3, -2, 3, 5, 6, 2, 4, 3]⟩

/-! ## The claims -/

/-- C9: full-size materialization never fails — for every store, a dense
target of the store's own dimensions (`neq × neq`) passes the dimension
check, so `as_matrix` always succeeds (the internal unwrap cannot panic)
and returns the full materialization of the stored triples: its entry at
every in-range position is the duplicate-summed content of the triples. -/
theorem as_matrix_never_fails (t : SparseTriplet) :
    t.as_matrix = some (materializeLoop t.triples (Matrix.new t.neq t.neq)) ∧
    ∀ i, i < t.neq → ∀ j, j < t.neq →
      (materializeLoop t.triples (Matrix.new t.neq t.neq)).data i j =
        denseOfTriples t.triples i j := by
  refine ⟨as_matrix_eq t, fun i hi j hj => ?_⟩
  exact materializeLoop_data t.triples (Matrix.new t.neq t.neq) i j hi hj

theorem as_matrix_never_fails_witness :
    oneStart.as_matrix =
        some (materializeLoop oneStart.triples (Matrix.new oneStart.neq oneStart.neq)) ∧
      (materializeLoop oneStart.triples (Matrix.new oneStart.neq oneStart.neq)).data 0 0 =
        denseOfTriples oneStart.triples 0 0 :=
  ⟨(as_matrix_never_fails oneStart).1,
    (as_matrix_never_fails oneStart).2 0 (by decide) 0 (by decide)⟩

/-- C10: for every matrix with zero rows or zero columns, `mat_norm`
returns exactly `0` for every norm kind, no matter what the external
`dlange` kernel would compute (it is never consulted). -/
theorem mat_norm_zero_dims (dlange : Char → ℕ → ℕ → (ℕ → ℕ → ℚ) → ℚ)
    (a : Matrix) (kind : Norm) (h : a.m = 0 ∨ a.n = 0) :
    mat_norm dlange a kind = 0 := by
  unfold mat_norm
  rw [if_pos h]

theorem mat_norm_zero_dims_witness :
    mat_norm (fun _ _ _ _ => 42) (Matrix.new 0 1) Norm.One = 0 :=
  mat_norm_zero_dims (fun _ _ _ _ => 42) (Matrix.new 0 1) Norm.One (Or.inl rfl)

/-- C7 counterexample: the store freshly created by `new(1, 1)` is
reachable (empty operation sequence) yet has `count = 0`, so the claimed
invariant `0 < count` fails on a reachable state. -/
theorem store_invariant_cex : Reachable oneStart ∧ ¬ (0 < oneStart.nnz_current) :=
  ⟨⟨1, 1, oneStart, [], rfl, rfl⟩, by decide⟩

/-- C7 (amended): in every state reachable from a successful create by
`put` and `reset` operations, `count ≤ capacity` holds (`0 < count` fails
on the fresh store, where `count = 0`), every meaningful stored row index
is `< neq` and every meaningful stored column index is `< neq`. -/
theorem store_invariant (t : SparseTriplet) (h : Reachable t) :
    t.nnz_current ≤ t.max ∧
      ∀ p < t.nnz_current,
        t.indices_i.getD p 0 < t.neq ∧ t.indices_j.getD p 0 < t.neq := by
  obtain ⟨hpm, hwf, hb⟩ := reachable_inv t h
  exact ⟨hpm, hb⟩

theorem store_invariant_witness :
    oneStart.nnz_current ≤ oneStart.max ∧
      ∀ p < oneStart.nnz_current,
        oneStart.indices_i.getD p 0 < oneStart.neq ∧
          oneStart.indices_j.getD p 0 < oneStart.neq :=
  store_invariant oneStart ⟨1, 1, oneStart, [], rfl, rfl⟩

/-- C6: `put` fails with the out-of-bounds error when the row index (or,
with an in-bounds row, the column index) reaches `neq`; fails with the
capacity error when, with in-bounds indices, `count = capacity`; otherwise
appends the triple and increments `count` by one. Failures return only an
error value, leaving the caller's store untouched. Consequently, on a
fresh store, `put` with in-bounds indices succeeds exactly `capacity`
times and the `(capacity+1)`-th call fails with the capacity error. -/
theorem put_contract :
    (∀ (t : SparseTriplet) (i j : ℕ) (v : ℚ), i ≥ t.neq →
      t.put i j v = .error "sparse matrix row index is out of bounds") ∧
    (∀ (t : SparseTriplet) (i j : ℕ) (v : ℚ), i < t.neq → j ≥ t.neq →
      t.put i j v = .error "sparse matrix column index is out of bounds") ∧
    (∀ (t : SparseTriplet) (i j : ℕ) (v : ℚ), i < t.neq → j < t.neq → t.pos = t.max →
      t.put i j v = .error "current nnz (number of non-zeros) reached maximum limit") ∧
    (∀ (t : SparseTriplet) (i j : ℕ) (v : ℚ), t.wf → i < t.neq → j < t.neq →
      t.pos < t.max →
      ∃ t', t.put i j v = .ok t' ∧ t'.nnz_current = t.nnz_current + 1 ∧
        t'.triples = t.triples ++ [(i, j, v)]) ∧
    (∀ (neq mx : ℕ) (t0 : SparseTriplet), SparseTriplet.new neq mx = .ok t0 →
      ∀ es : List (ℕ × ℕ × ℚ), es.length = mx → (∀ e ∈ es, e.1 < neq ∧ e.2.1 < neq) →
      ∃ t', putSeq t0 es = .ok t' ∧
        ∀ (i j : ℕ) (v : ℚ), i < neq → j < neq →
          t'.put i j v = .error "current nnz (number of non-zeros) reached maximum limit") := by
  refine ⟨put_error_row, put_error_col, ?_, ?_, ?_⟩
  · intro t i j v hi hj hfull
    exact put_error_cap t i j v hi hj (ge_of_eq hfull)
  · intro t i j v hwf hi hj hp
    obtain ⟨t', hput, htr, -, hpos, -, -⟩ := triples_put t i j v hwf hi hj hp
    exact ⟨t', hput, hpos, htr⟩
  · intro neq mx t0 hnew es hlen hb
    obtain ⟨hwf0, hpos0, hneq0, hmax0, -⟩ := new_wf neq mx t0 hnew
    obtain ⟨t', hseq, hpos', hneq', hmax', -, -⟩ := putSeq_ok es t0 hwf0
      (fun e he => by rw [hneq0]; exact hb e he)
      (by rw [hpos0, hmax0, hlen]; omega)
    refine ⟨t', hseq, fun i j v hi hj => ?_⟩
    apply put_error_cap t' i j v (by rw [hneq']; rw [hneq0]; exact hi)
      (by rw [hneq']; rw [hneq0]; exact hj)
    rw [hpos', hmax', hpos0, hmax0, hlen]
    omega

theorem put_contract_witness :
    (oneStart.put 1 0 0 = .error "sparse matrix row index is out of bounds") ∧
    ∃ t', putSeq oneStart [(0, 0, 0)] = .ok t' ∧
      ∀ (i j : ℕ) (v : ℚ), i < 1 → j < 1 →
        t'.put i j v = .error "current nnz (number of non-zeros) reached maximum limit" :=
  ⟨put_contract.1 oneStart 1 0 0 (by decide),
    put_contract.2.2.2.2 1 1 oneStart rfl [(0, 0, 0)] rfl
      (fun e he => by
        rw [List.mem_singleton] at he
        rw [he]
        exact ⟨Nat.one_pos, Nat.one_pos⟩)⟩

/-- C1: duplicate-summation law — putting `(row, col, v1)` and then
`(row, col, v2)` and materializing yields the same dense entry at
`(row, col)` as putting `(row, col, v1 + v2)` once, because
materialization zero-fills and then adds every in-window stored triple in
insertion order; in particular the 4×4 capacity-7 scenario with the two
`(0,0,0.5)` entries materializes to `[[1,2,0,0],[3,4,0,0],[0,0,5,0],[0,0,0,6]]`. -/
theorem duplicate_summation :
    (∀ (t : SparseTriplet) (row col : ℕ) (v1 v2 : ℚ) (a : Matrix),
      t.wf → row < t.neq → col < t.neq → t.pos + 2 ≤ t.max →
      a.m ≤ t.neq → a.n ≤ t.neq → row < a.m → col < a.n →
      ∃ t12 t3 w12 w3,
        (t.put row col v1).bind (fun s => s.put row col v2) = .ok t12 ∧
        t.put row col (v1 + v2) = .ok t3 ∧
        t12.to_matrix a = .ok w12 ∧ t3.to_matrix a = .ok w3 ∧
        w12.data row col = w3.data row col) ∧
    ((SparseTriplet.new 4 7).bind (fun t => putSeq t
        [(0, 0, 1/2), (0, 0, 1/2), (0, 1, 2), (1, 0, 3), (1, 1, 4), (2, 2, 5), (3, 3, 6)])
      = .ok dupStore ∧
     ∃ f, dupStore.as_matrix = some f ∧
       (f.data 0 0 = 1 ∧ f.data 0 1 = 2 ∧ f.data 0 2 = 0 ∧ f.data 0 3 = 0) ∧
       (f.data 1 0 = 3 ∧ f.data 1 1 = 4 ∧ f.data 1 2 = 0 ∧ f.data 1 3 = 0) ∧
       (f.data 2 0 = 0 ∧ f.data 2 1 = 0 ∧ f.data 2 2 = 5 ∧ f.data 2 3 = 0) ∧
       (f.data 3 0 = 0 ∧ f.data 3 1 = 0 ∧ f.data 3 2 = 0 ∧ f.data 3 3 = 6)) := by
  constructor
  · intro t row col v1 v2 a hwf hrow hcol hcap ham han hrm hcn
    obtain ⟨t1, hput1, htr1, hneq1, hpos1, hmax1, hwf1⟩ :=
      triples_put t row col v1 hwf hrow hcol (by omega)
    obtain ⟨t12, hput2, htr2, hneq2, hpos2, hmax2, hwf2⟩ :=
      triples_put t1 row col v2 hwf1 (by rw [hneq1]; exact hrow) (by rw [hneq1]; exact hcol)
        (by rw [hpos1, hmax1]; omega)
    obtain ⟨t3, hput3, htr3, hneq3, hpos3, hmax3, hwf3⟩ :=
      triples_put t row col (v1 + v2) hwf hrow hcol (by omega)
    refine ⟨t12, t3, materializeLoop t12.triples a, materializeLoop t3.triples a,
      ?_, hput3, ?_, ?_, ?_⟩
    · rw [hput1, except_bind_ok]
      exact hput2
    · rw [to_matrix_eq, if_neg (by push_neg; rw [hneq2, hneq1]; exact ⟨ham, han⟩)]
    · rw [to_matrix_eq, if_neg (by push_neg; rw [hneq3]; exact ⟨ham, han⟩)]
    · rw [materializeLoop_data t12.triples a row col hrm hcn,
        materializeLoop_data t3.triples a row col hrm hcn,
        htr2, htr1, htr3, denseOfTriples_append, denseOfTriples_append,
        denseOfTriples_append, denseOfTriples_single, denseOfTriples_single,
        denseOfTriples_single]
      ring
  · constructor
    · norm_num [SparseTriplet.new, putSeq_cons, putSeq_nil, SparseTriplet.put,
        except_bind_ok, Except.bind, dupStore, List.replicate_succ,
        List.set_cons_zero, List.set_cons_succ]
    · refine ⟨materializeLoop dupStore.triples (Matrix.new dupStore.neq dupStore.neq),
        as_matrix_eq dupStore, ?_⟩
      have htr : dupStore.triples =
          [(0, 0, 1/2), (0, 0, 1/2), (0, 1, 2), (1, 0, 3), (1, 1, 4), (2, 2, 5), (3, 3, 6)] := by
        norm_num [SparseTriplet.triples, tripleAt, dupStore, List.range_succ]
      rw [htr]
      norm_num [materializeLoop, Matrix.new, Matrix.fill, Matrix.add, dupStore]

/-- C5: windowed materialization — a target whose dimensions stay within
the store's own is filled successfully, and each of its entries equals
the corresponding entry of the full materialization (`as_matrix`); a
larger target is rejected with the dimension error; in particular the
duplicate-summation store materialized into a 3×3 target yields
`[[1,2,0],[3,4,0],[0,0,5]]`. -/
theorem windowed_materialization :
    (∀ (t : SparseTriplet) (a : Matrix), a.m > t.neq ∨ a.n > t.neq →
      t.to_matrix a = .error "wrong matrix dimensions") ∧
    (∀ (t : SparseTriplet) (a : Matrix), a.m ≤ t.neq → a.n ≤ t.neq →
      ∃ w f, t.to_matrix a = .ok w ∧ t.as_matrix = some f ∧
        w.m = a.m ∧ w.n = a.n ∧
        ∀ i, i < a.m → ∀ j, j < a.n → w.data i j = f.data i j) ∧
    (∃ w, dupStore.to_matrix (Matrix.new 3 3) = .ok w ∧
      ((w.data 0 0 = 1 ∧ w.data 0 1 = 2 ∧ w.data 0 2 = 0) ∧
       (w.data 1 0 = 3 ∧ w.data 1 1 = 4 ∧ w.data 1 2 = 0) ∧
       (w.data 2 0 = 0 ∧ w.data 2 1 = 0 ∧ w.data 2 2 = 5))) := by
  refine ⟨?_, ?_, ?_⟩
  · intro t a h
    rw [to_matrix_eq, if_pos h]
  · intro t a ham han
    refine ⟨materializeLoop t.triples a,
      materializeLoop t.triples (Matrix.new t.neq t.neq),
      ?_, as_matrix_eq t, (materializeLoop_dims t.triples a).1,
      (materializeLoop_dims t.triples a).2, ?_⟩
    · rw [to_matrix_eq, if_neg (by push_neg; exact ⟨ham, han⟩)]
    · intro i hi j hj
      rw [materializeLoop_data t.triples a i j hi hj,
        materializeLoop_data t.triples (Matrix.new t.neq t.neq) i j
          (lt_of_lt_of_le hi ham) (lt_of_lt_of_le hj han)]
  · refine ⟨materializeLoop dupStore.triples (Matrix.new 3 3), ?_, ?_⟩
    · rw [to_matrix_eq, if_neg (by norm_num [Matrix.new, dupStore])]
    · have htr : dupStore.triples =
          [(0, 0, 1/2), (0, 0, 1/2), (0, 1, 2), (1, 0, 3), (1, 1, 4), (2, 2, 5), (3, 3, 6)] := by
        norm_num [SparseTriplet.triples, tripleAt, dupStore, List.range_succ]
      rw [htr]
      norm_num [materializeLoop, Matrix.new, Matrix.fill, Matrix.add]

theorem windowed_materialization_witness :
    ∃ w f, oneStart.to_matrix (Matrix.new 1 1) = .ok w ∧ oneStart.as_matrix = some f ∧
      w.m = (Matrix.new 1 1).m ∧ w.n = (Matrix.new 1 1).n ∧
      ∀ i, i < (Matrix.new 1 1).m → ∀ j, j < (Matrix.new 1 1).n → w.data i j = f.data i j :=
  windowed_materialization.2.1 oneStart (Matrix.new 1 1) (by decide) (by decide)

theorem duplicate_summation_witness :
    ∃ t12 t3 w12 w3,
      (twoStart.put 0 0 0).bind (fun s => s.put 0 0 0) = .ok t12 ∧
      twoStart.put 0 0 (0 + 0) = .ok t3 ∧
      t12.to_matrix (Matrix.new 1 1) = .ok w12 ∧ t3.to_matrix (Matrix.new 1 1) = .ok w3 ∧
      w12.data 0 0 = w3.data 0 0 :=
  duplicate_summation.1 twoStart 0 0 0 0 (Matrix.new 1 1) ⟨rfl, rfl, rfl⟩
    (by decide) (by decide) (by decide) (by decide) (by decide) (by decide) (by decide)

/-- C4: the matrix-vector multiply contract — `mat_vec_mul(u, triangular)`
fails with the dimension error exactly when `u` has length different from
`neq`, and otherwise returns the vector described by the specification:
starting from zero, each stored triple `(i, j, a)` in insertion order
accumulates `v[i] += a * u[j]`, plus `v[j] += a * u[i]` when `triangular`
holds and `i ≠ j`. -/
theorem multiply_contract (t : SparseTriplet) (u : List ℚ) (tri : Bool) :
    (u.length ≠ t.neq → t.mat_vec_mul u tri = .error "u.ndim must equal neq") ∧
    (u.length = t.neq → t.mat_vec_mul u tri = .ok (multiplySpec t.neq t.triples u tri)) := by
  constructor
  · intro h
    rw [mat_vec_mul_eq, if_pos h]
  · intro h
    rw [mat_vec_mul_eq, if_neg (not_not_intro h)]
    rfl

theorem multiply_contract_witness :
    oneStart.mat_vec_mul [] false = .error "u.ndim must equal neq" ∧
    oneStart.mat_vec_mul [0] false = .ok (multiplySpec oneStart.neq oneStart.triples [0] false) :=
  ⟨(multiply_contract oneStart [] false).1 (by decide),
   (multiply_contract oneStart [0] false).2 rfl⟩

/-- C3: verifier correctness on an exact solution — whenever the supplied
`x` reproduces `rhs` exactly (`A·x = rhs` as computed by the store's own
multiplication), `verify` succeeds with `max_abs_diff = 0` and
`relative_error = max_abs_diff / (max_abs_a + 1) = 0`; in particular the
`[[1,3,-2],[3,5,6],[2,4,3]]`, `x = [-15,8,2]`, `rhs = [5,7,8]` scenario
returns `max_abs_a = 6`, `max_abs_ax = 8`, `max_abs_diff = 0`,
`relative_error = 0`. -/
theorem verify_exact_solution :
    (∀ (t : SparseTriplet) (x rhs : List ℚ), t.mat_vec_mul x false = .ok rhs →
      ∃ r, VerifyLinSys.new t x rhs = .ok r ∧ r.max_abs_diff = 0 ∧ r.relative_error = 0) ∧
    ((SparseTriplet.new 3 9).bind (fun t => putSeq t
        [(0, 0, 1), (0, 1, 3), (0, 2, -2), (1, 0, 3), (1, 1, 5), (1, 2, 6),
         (2, 0, 2), (2, 1, 4), (2, 2, 3)]) = .ok exStore ∧
     VerifyLinSys.new exStore [-15, 8, 2] [5, 7, 8] =
       .ok ⟨6, 8, 0, 0⟩) := by
  constructor
  · intro t x rhs h
    obtain ⟨hx, hrhs, -⟩ := mat_vec_mul_ok t x false rhs h
    unfold VerifyLinSys.new
    rw [if_neg (by push_neg; exact ⟨hx, hrhs⟩), h]
    refine ⟨_, rfl, ?_, ?_⟩
    · show vecNormMax (List.zipWith (fun a r => a + (-1) * r) rhs rhs) = 0
      rw [zipWith_sub_self, vecNormMax_replicate_zero]
    · show vecNormMax (List.zipWith (fun a r => a + (-1) * r) rhs rhs) /
        (|t.values_aij.getD (idamax t.pos t.values_aij) 0| + 1) = 0
      rw [zipWith_sub_self, vecNormMax_replicate_zero, zero_div]
  · constructor
    · norm_num [SparseTriplet.new, putSeq_cons, putSeq_nil, SparseTriplet.put,
        except_bind_ok, Except.bind, exStore, List.replicate_succ,
        List.set_cons_zero, List.set_cons_succ]
    · norm_num [VerifyLinSys.new, SparseTriplet.mat_vec_mul, idamax, vecNormMax,
        vaddAt, exStore, List.range_succ, List.replicate_succ, Except.map]

theorem verify_exact_solution_witness :
    ∃ r, VerifyLinSys.new oneStart [0] [0] = .ok r ∧
      r.max_abs_diff = 0 ∧ r.relative_error = 0 :=
  verify_exact_solution.1 oneStart [0] [0] rfl

/-- C2: symmetric-triangular multiplication equivalence — whenever the
symmetric completion of a store's content (a lower-triangle store) equals
the raw content of a second store (both triangles stored explicitly), the
product with `triangular = true` on the first store equals the product
with `triangular = false` on the second, for the same vector; in
particular the tridiagonal `[[2,-1,0],[-1,2,-1],[0,-1,2]]` stored as its
lower triangle multiplied by `[5,8,7]` with `triangular = true` yields
`[2,4,6]`. -/
theorem triangular_multiply_equiv :
    (∀ (t1 t2 : SparseTriplet) (u : List ℚ),
      t1.neq = t2.neq → u.length = t1.neq →
      (∀ e ∈ t1.triples, e.1 < t1.neq ∧ e.2.1 < t1.neq) →
      (∀ e ∈ t2.triples, e.1 < t2.neq ∧ e.2.1 < t2.neq) →
      (∀ e ∈ t1.triples, e.2.1 ≤ e.1) →
      (∀ i j, i < t1.neq → j < t1.neq →
        symDenseOfTriples t1.triples i j = denseOfTriples t2.triples i j) →
      t1.mat_vec_mul u true = t2.mat_vec_mul u false) ∧
    ((SparseTriplet.new 3 5).bind (fun t => putSeq t
        [(0, 0, 2), (1, 1, 2), (2, 2, 2), (1, 0, -1), (2, 1, -1)]) = .ok lowStore ∧
     lowStore.mat_vec_mul [5, 8, 7] true = .ok [2, 4, 6]) := by
  constructor
  · intro t1 t2 u hneq hu hb1 hb2 hlow hsym
    rw [mat_vec_mul_eq, mat_vec_mul_eq, if_neg (not_not_intro hu),
      if_neg (not_not_intro (hu.trans hneq))]
    show Except.ok (multiplySpec t1.neq t1.triples u true) =
      Except.ok (multiplySpec t2.neq t2.triples u false)
    refine congrArg Except.ok ?_
    apply list_eq_of_getD
    · rw [multiplySpec_length, multiplySpec_length, hneq]
    · intro k hk
      rw [multiplySpec_length] at hk
      rw [multiplySpec_getD t1.neq t1.triples u true k hk hb1,
        multiplySpec_getD t2.neq t2.triples u false k (hneq ▸ hk) hb2, ← hneq]
      refine Finset.sum_congr rfl (fun j hj => ?_)
      rw [effDense_true, effDense_false, hsym k j hk (Finset.mem_range.mp hj)]
  · constructor
    · norm_num [SparseTriplet.new, putSeq_cons, putSeq_nil, SparseTriplet.put,
        except_bind_ok, Except.bind, lowStore, List.replicate_succ,
        List.set_cons_zero, List.set_cons_succ]
    · norm_num [SparseTriplet.mat_vec_mul, vaddAt, lowStore, List.range_succ,
        List.replicate_succ]

theorem triangular_multiply_equiv_witness :
    oneStart.mat_vec_mul [0] true = oneStart.mat_vec_mul [0] false :=
  triangular_multiply_equiv.1 oneStart oneStart [0] rfl rfl
    (fun e he => absurd he (by simp [SparseTriplet.triples, oneStart]))
    (fun e he => absurd he (by simp [SparseTriplet.triples, oneStart]))
    (fun e he => absurd he (by simp [SparseTriplet.triples, oneStart]))
    (fun i j _ _ => rfl)

/-- C8: reset equivalence — after `reset()` the store reports a count of
zero (and `reset` has no failure mode), and any subsequent `put` sequence
fails or succeeds exactly as on a freshly created store of the same
dimension and capacity, with identical materialization and multiplication
results afterwards: the stale array content beyond the cursor is never
read. -/
theorem reset_equivalence (t t0 : SparseTriplet) (hwf : t.wf)
    (hnew : SparseTriplet.new t.neq t.max = .ok t0) :
    t.reset.nnz_current = 0 ∧
    ∀ es : List (ℕ × ℕ × ℚ),
      (∀ e, (putSeq t.reset es = .error e ↔ putSeq t0 es = .error e)) ∧
      (∀ t1 t2, putSeq t.reset es = .ok t1 → putSeq t0 es = .ok t2 →
        (∀ a : Matrix, t1.to_matrix a = t2.to_matrix a) ∧
        (∀ (u : List ℚ) (tri : Bool), t1.mat_vec_mul u tri = t2.mat_vec_mul u tri)) := by
  obtain ⟨hwf0, hpos0, hneq0, hmax0, htr0⟩ := new_wf t.neq t.max t0 hnew
  have hobs : Obseq t.reset t0 := by
    refine ⟨hneq0.symm, ?_, hmax0.symm, hwf, hwf0, ?_⟩
    · rw [hpos0]
      rfl
    · rw [triples_reset, htr0]
  refine ⟨rfl, fun es => ?_⟩
  have hseq := putSeq_obseq es t.reset t0 hobs
  constructor
  · intro e
    cases h1 : putSeq t.reset es with
    | error e1 =>
      cases h2 : putSeq t0 es with
      | error e2 =>
        rw [h1, h2] at hseq
        have h12 : e1 = e2 := hseq
        rw [h12]
      | ok s2 =>
        rw [h1, h2] at hseq
        exact hseq.elim
    | ok s1 =>
      cases h2 : putSeq t0 es with
      | error e2 =>
        rw [h1, h2] at hseq
        exact hseq.elim
      | ok s2 =>
        exact ⟨fun hh => Except.noConfusion hh, fun hh => Except.noConfusion hh⟩
  · intro t1 t2 h1 h2
    rw [h1, h2] at hseq
    have hob : Obseq t1 t2 := hseq
    exact ⟨obseq_to_matrix t1 t2 hob, fun u tri => obseq_mat_vec_mul t1 t2 hob u tri⟩

theorem reset_equivalence_witness :
    oneStart.reset.nnz_current = 0 ∧
    ∀ es : List (ℕ × ℕ × ℚ),
      (∀ e, (putSeq oneStart.reset es = .error e ↔ putSeq oneStart es = .error e)) ∧
      (∀ t1 t2, putSeq oneStart.reset es = .ok t1 → putSeq oneStart es = .ok t2 →
        (∀ a : Matrix, t1.to_matrix a = t2.to_matrix a) ∧
        (∀ (u : List ℚ) (tri : Bool), t1.mat_vec_mul u tri = t2.mat_vec_mul u tri)) :=
  reset_equivalence oneStart oneStart ⟨rfl, rfl, rfl⟩ rfl

end Russell
